import Mathlib

/-!
Verification of the core pipeline of `src/app.py` (`process_and_zip`): an
Excel splitter that reads one sheet, partitions its rows by the distinct
values of a designated key column, serializes each partition, bundles the
results into a zip archive, and reconciles row counts.

Modelling conventions:
* A cell is `Option String`: `none` models a null/NaN cell (what pandas
  `dropna` removes); `some s` models a scalar value by its text.  Scalars of
  the source (text, number, date) are represented by their text rendering,
  which is what the filename sanitizer receives via `str(value)` and what
  value-equality of the partition filter compares.
* A dataset is a header (list of column names) plus a list of rows, each row
  a list of cells aligned positionally with the header, as produced by
  `pd.read_excel` (`src/app.py` line 34).
* Byte streams are `List Nat`; the Excel serializer (`to_excel`, line 64) is
  an opaque parameter that may fail, modelling `SerializationError`.
-/

/-- A cell of the spreadsheet: `none` is a null/NaN cell, `some s` a scalar
rendered as text. -/
abbrev Cell := Option String

/-- A row: cells aligned positionally with the dataset's header. -/
abbrev Row := List Cell

/-- A tabular dataset as produced by `pd.read_excel`: header names in source
order, rows in source order (`src/app.py` line 34). -/
structure Dataset where
  header : List String
  rows : List Row

/-- Index of the key column in the header (pandas column lookup
`df[column_name]`, `src/app.py` line 39).  Meaningful when the column is
present; `List.indexOf` returns the header length otherwise, in which case
every lookup yields `none`. -/
def colIdx (d : Dataset) (c : String) : Nat := d.header.indexOf c

/-- The key-column cell of a row: `df[column_name]` at that row.  Out-of-range
positions collapse to `none` (null). -/
def keyOf (d : Dataset) (c : String) (r : Row) : Option String :=
  (r.get? (colIdx d c)).join

/-- The key column after `dropna()`: the non-null key values in row order
(`src/app.py` line 39). -/
def droppedKeys (d : Dataset) (c : String) : List String :=
  d.rows.filterMap (keyOf d c)

/-- Fuel-driven first-occurrence deduplication; with enough fuel this is
`unique` of pandas: keep each value's first occurrence, drop later repeats.
Structural in the fuel so that concrete instances evaluate. -/
def uniqueFirstAux : Nat → List String → List String
  | _, [] => []
  | 0, _ :: _ => []
  | fuel + 1, x :: xs => x :: uniqueFirstAux fuel (xs.filter (fun y => y != x))

/-- First-occurrence deduplication, `pd.Series.unique` (`src/app.py`
line 39). -/
def uniqueFirst (l : List String) : List String := uniqueFirstAux l.length l

/-- `df[column_name].dropna().unique()` (`src/app.py` line 39): the distinct
non-null key values in first-occurrence order. -/
def uniqueValues (d : Dataset) (c : String) : List String :=
  uniqueFirst (droppedKeys d c)

/-- `df[df[column_name] == value]` (`src/app.py` line 51): the rows whose key
cell equals the given value, in original row order.  A null cell never
compares equal. -/
def groupRows (d : Dataset) (c : String) (v : String) : List Row :=
  d.rows.filter (fun r => keyOf d c r == some v)

/-- Python `str.isalnum` restricted to the character repertoire this program
manipulates: ASCII alphanumerics plus the CJK Unified Ideographs block (the
placeholder filename prefix is made of such ideographs, and Python treats
them as alphanumeric). -/
def pyIsAlnum (ch : Char) : Bool :=
  ch.isAlphanum || (0x4E00 ≤ ch.toNat && ch.toNat ≤ 0x9FFF)

/-- The character filter of the sanitizer (`src/app.py` line 56): keep
alphanumerics, the space (code 32), underscores and hyphens. -/
def keepChar (ch : Char) : Bool :=
  pyIsAlnum ch || ch.toNat == 32 || ch == '_' || ch == '-'

/-- Python `str.rstrip()`: remove trailing whitespace (`src/app.py`
line 56). -/
def pyRstrip (cs : List Char) : List Char :=
  (cs.reverse.dropWhile Char.isWhitespace).reverse

/-- The sanitizer's main computation (`src/app.py` line 56): keep only the
allowed characters of the value's text, then strip trailing whitespace. -/
def sanitizeBase (s : String) : String :=
  String.mk (pyRstrip (s.data.filter keepChar))

/-- One decimal digit as a character. -/
def digitChar (d : Nat) : Char := Char.ofNat (48 + d)

/-- Fuel-driven decimal rendering (most significant digit first), structural
in the fuel so that concrete instances evaluate. -/
def natDigitsAux : Nat → Nat → List Char
  | _, 0 => []
  | 0, _ + 1 => []
  | fuel + 1, n + 1 =>
      natDigitsAux fuel ((n + 1) / 10) ++ [digitChar ((n + 1) % 10)]

/-- Python `str(i)` for a natural number: its decimal rendering. -/
def natStr (n : Nat) : String :=
  if n = 0 then "0" else String.mk (natDigitsAux n n)

/-- The fallback filename for values that sanitize to empty
(`src/app.py` line 58): `f"未命名项目_{i}"`. -/
def placeholder (i : Nat) : String := "未命名项目_" ++ natStr i

/-- The filename sanitizer (`src/app.py` lines 56-58): the sanitized text if
non-empty, else the positional placeholder. -/
def safeFilename (v : String) (i : Nat) : String :=
  if sanitizeBase v = "" then placeholder i else sanitizeBase v

/-- Row counts of the groups, in discovery order (`num_rows_in_group`,
`src/app.py` line 52). -/
def groupCounts (d : Dataset) (c : String) : List Nat :=
  (uniqueValues d c).map (fun v => (groupRows d c v).length)

/-- The loop accumulator `processed_rows_count` after all groups are
processed (`src/app.py` lines 48 and 53): the group row counts summed in
discovery order. -/
def processedRowsCount (d : Dataset) (c : String) : Nat :=
  (groupCounts d c).sum

/-- The rows `dropna` excludes from partitioning: those whose key cell is
null. -/
def nullKeyRows (d : Dataset) (c : String) : List Row :=
  d.rows.filter (fun r => keyOf d c r == none)

/-- Modelled from the spec: the rows "with null/empty key" named by the
reconciliation and partition-exactness sentences, read literally as rows
whose key cell is null or holds the empty string.  Used only to compare the
spec's wording against the code, which excludes null cells alone. -/
def nullOrEmptyKeyRows (d : Dataset) (c : String) : List Row :=
  d.rows.filter (fun r => keyOf d c r == none || keyOf d c r == some "")

/-- Outcome of `pd.read_excel` (`src/app.py` line 34): a dataset, or a
failure (`FormatError`) for a stream that is not a well-formed workbook. -/
inductive ReadResult
  | ok (d : Dataset)
  | err

/-- One `log_message` call of `process_and_zip`, by call site. -/
inductive LogEvent
  | prepare (sourceName : String)
  | readOk (totalRows : Nat)
  | foundKeys (column : String) (numKeys : Nat)
  | separator
  | groupDone (i : Nat) (total : Nat) (filename : String) (numRows : Nat)
  | allDone
  | reconcileOk (total : Nat) (processed : Nat)
  | reconcileWarn (unprocessed : Nat)
  | reconcileHint (column : String)
  | errorMsg
  | errorHint
deriving DecidableEq

/-- The in-memory zip: its members in write order, and the position of the
underlying byte buffer. -/
structure Archive where
  entries : List (String × List Nat)
  pos : Nat
deriving DecidableEq

/-- The buffer after all members are written: position at the end of the
written bytes (zip container overhead abstracted away). -/
def buildArchive (entries : List (String × List Nat)) : Archive :=
  { entries := entries, pos := (entries.map (fun e => e.2.length)).sum }

/-- `zip_buffer.seek(0)` (`src/app.py` line 86): rewind to the start. -/
def seek0 (a : Archive) : Archive := { a with pos := 0 }

/-- `enumerate(unique_values, 1)` (`src/app.py` line 50): pair each key with
its 1-based position. -/
def enum1 (keys : List String) : List (Nat × String) :=
  keys.enum.map (fun p => (p.1 + 1, p.2))

/-- The loop body of `src/app.py` lines 50-72 over the enumerated keys:
serialize each group and append it to the zip, logging one line per group.
A serializer failure raises, so it aborts the remaining groups and yields no
member list (`n` is the total key count shown in each log line). -/
def runGroups (d : Dataset) (c : String) (ser : List Row → Option (List Nat))
    (n : Nat) : List (Nat × String) → Option (List (String × List Nat)) × List LogEvent
  | [] => (some [], [])
  | (i, v) :: rest =>
      match ser (groupRows d c v) with
      | none => (none, [])
      | some bytes =>
          let tail := runGroups d c ser n rest
          (tail.1.map (fun es => (safeFilename v i ++ ".xlsx", bytes) :: es),
           LogEvent.groupDone i n (safeFilename v i ++ ".xlsx")
             (groupRows d c v).length :: tail.2)

/-- `process_and_zip` (`src/app.py` lines 16-92): the whole pipeline.  Any
exception — unreadable input, missing key column (`df[column_name]` raises),
or serializer failure — is caught by the `except` block, which logs the two
error lines and returns no archive.  On success the finished zip is rewound
and returned together with the full log. -/
def process_and_zip (sourceName : String) (rd : ReadResult) (c : String)
    (ser : List Row → Option (List Nat)) : Option Archive × List LogEvent :=
  match rd with
  | .err => (none, [.prepare sourceName, .errorMsg, .errorHint])
  | .ok d =>
      if c ∈ d.header then
        let keys := uniqueValues d c
        let run := runGroups d c ser keys.length (enum1 keys)
        match run.1 with
        | none =>
            (none,
             [.prepare sourceName, .readOk d.rows.length,
              .foundKeys c keys.length, .separator]
               ++ run.2 ++ [.errorMsg, .errorHint])
        | some entries =>
            (some (seek0 (buildArchive entries)),
             [.prepare sourceName, .readOk d.rows.length,
              .foundKeys c keys.length, .separator]
               ++ run.2 ++ [.separator, .allDone]
               ++ (if d.rows.length = processedRowsCount d c then
                     [.reconcileOk d.rows.length (processedRowsCount d c)]
                   else
                     [.reconcileWarn (d.rows.length - processedRowsCount d c),
                      .reconcileHint c]))
      else
        (none, [.prepare sourceName, .readOk d.rows.length, .errorMsg, .errorHint])

/-- The (filename, group) pairs the loop of `src/app.py` lines 50-68 writes,
in loop order, described independently of the serializer: each discovered key,
at its 1-based position, contributes one member named by the sanitizer. -/
def archiveEntries (d : Dataset) (c : String) : List (String × List Row) :=
  (enum1 (uniqueValues d c)).map
    (fun p => (safeFilename p.2 p.1 ++ ".xlsx", groupRows d c p.2))

/-- A one-row dataset whose key cell holds the empty string (not null). -/
def emptyKeyDataset : Dataset := { header := ["K"], rows := [[some ""]] }

/-- A dataset whose two distinct key values both sanitize to "Team". -/
def dupNameDataset : Dataset :=
  { header := ["K"], rows := [[some "Team/"], [some "Team*"]] }

/-- A small dataset with a repeated key and a null key cell. -/
def sampleDataset : Dataset :=
  { header := ["Region", "Qty"],
    rows := [[some "North", some "1"], [some "North", some "2"], [none, some "3"]] }

/-- A serializer that always succeeds, rendering a group as its row count. -/
def serOk : List Row → Option (List Nat) := fun g => some [g.length]

/-- A serializer that always fails, modelling a `SerializationError`. -/
def serFail : List Row → Option (List Nat) := fun _ => none

/-! ### Properties of first-occurrence deduplication -/

theorem uniqueFirstAux_congr : ∀ (f₁ f₂ : Nat) (l : List String), l.length ≤ f₁ →
    l.length ≤ f₂ → uniqueFirstAux f₁ l = uniqueFirstAux f₂ l := by
  intro f₁
  induction f₁ with
  | zero =>
      intro f₂ l h₁ _
      have : l = [] := List.eq_nil_of_length_eq_zero (Nat.le_zero.mp h₁)
      subst this
      cases f₂ <;> rfl
  | succ f ih =>
      intro f₂ l h₁ h₂
      cases l with
      | nil => cases f₂ <;> rfl
      | cons x xs =>
          cases f₂ with
          | zero => simp at h₂
          | succ f₂' =>
              simp only [uniqueFirstAux]
              have hxs₁ : xs.length ≤ f := by simpa using h₁
              have hxs₂ : xs.length ≤ f₂' := by simpa using h₂
              congr 1
              exact ih f₂' _ (le_trans (List.length_filter_le _ _) hxs₁)
                (le_trans (List.length_filter_le _ _) hxs₂)

theorem uniqueFirst_nil : uniqueFirst [] = [] := rfl

theorem uniqueFirst_cons (x : String) (xs : List String) :
    uniqueFirst (x :: xs) = x :: uniqueFirst (xs.filter (fun y => y != x)) := by
  unfold uniqueFirst
  simp only [List.length_cons, uniqueFirstAux]
  congr 1
  exact uniqueFirstAux_congr _ _ _ (le_trans (List.length_filter_le _ _) le_rfl) le_rfl

theorem mem_uniqueFirstAux : ∀ (fuel : Nat) (l : List String), l.length ≤ fuel →
    ∀ v, v ∈ uniqueFirstAux fuel l ↔ v ∈ l := by
  intro fuel
  induction fuel with
  | zero =>
      intro l h v
      have : l = [] := List.eq_nil_of_length_eq_zero (Nat.le_zero.mp h)
      subst this
      simp [uniqueFirstAux]
  | succ f ih =>
      intro l h v
      cases l with
      | nil => simp [uniqueFirstAux]
      | cons x xs =>
          have hxs : (xs.filter (fun y => y != x)).length ≤ f :=
            le_trans (List.length_filter_le _ _) (by simpa using h)
          simp only [uniqueFirstAux, List.mem_cons]
          rw [ih _ hxs v]
          by_cases hvx : v = x <;> simp [List.mem_filter, bne_iff_ne, hvx]

theorem mem_uniqueFirst (l : List String) (v : String) :
    v ∈ uniqueFirst l ↔ v ∈ l :=
  mem_uniqueFirstAux l.length l le_rfl v

theorem nodup_uniqueFirstAux : ∀ (fuel : Nat) (l : List String), l.length ≤ fuel →
    (uniqueFirstAux fuel l).Nodup := by
  intro fuel
  induction fuel with
  | zero =>
      intro l h
      have : l = [] := List.eq_nil_of_length_eq_zero (Nat.le_zero.mp h)
      subst this
      simp [uniqueFirstAux]
  | succ f ih =>
      intro l h
      cases l with
      | nil => simp [uniqueFirstAux]
      | cons x xs =>
          have hxs : (xs.filter (fun y => y != x)).length ≤ f :=
            le_trans (List.length_filter_le _ _) (by simpa using h)
          simp only [uniqueFirstAux, List.nodup_cons]
          refine ⟨fun hmem => ?_, ih _ hxs⟩
          have := (mem_uniqueFirstAux f _ hxs x).mp hmem
          simp [List.mem_filter] at this

theorem nodup_uniqueFirst (l : List String) : (uniqueFirst l).Nodup :=
  nodup_uniqueFirstAux l.length l le_rfl

theorem indexOf_filter_ne_le (x v w : String) : ∀ (xs : List String), v ≠ x → w ≠ x →
    v ∈ xs → w ∈ xs →
    ((xs.filter (fun y => y != x)).indexOf v ≤ (xs.filter (fun y => y != x)).indexOf w ↔
      xs.indexOf v ≤ xs.indexOf w) := by
  intro xs
  induction xs with
  | nil => intro _ _ hv _; simp at hv
  | cons y ys ih =>
      intro hvx hwx hv hw
      by_cases hyx : y = x
      · subst hyx
        have hvy : v ∈ ys := by
          rcases List.mem_cons.mp hv with h | h
          · exact absurd h hvx
          · exact h
        have hwy : w ∈ ys := by
          rcases List.mem_cons.mp hw with h | h
          · exact absurd h hwx
          · exact h
        have hfil : (y :: ys).filter (fun z => z != y) = ys.filter (fun z => z != y) := by
          simp [List.filter_cons]
        rw [hfil, List.indexOf_cons_ne ys (Ne.symm hvx), List.indexOf_cons_ne ys (Ne.symm hwx)]
        rw [Nat.succ_le_succ_iff]
        exact ih hvx hwx hvy hwy
      · have hfil : (y :: ys).filter (fun z => z != x) = y :: ys.filter (fun z => z != x) := by
          simp [List.filter_cons, bne_iff_ne, hyx]
        rw [hfil]
        by_cases hvy : v = y
        · subst hvy
          simp [List.indexOf_cons_self]
        · by_cases hwy : w = y
          · subst hwy
            rw [List.indexOf_cons_self, List.indexOf_cons_self,
              List.indexOf_cons_ne _ (Ne.symm hvy), List.indexOf_cons_ne _ (Ne.symm hvy)]
            simp
          · have hvys : v ∈ ys := by
              rcases List.mem_cons.mp hv with h | h
              · exact absurd h hvy
              · exact h
            have hwys : w ∈ ys := by
              rcases List.mem_cons.mp hw with h | h
              · exact absurd h hwy
              · exact h
            rw [List.indexOf_cons_ne _ (Ne.symm hvy), List.indexOf_cons_ne _ (Ne.symm hwy),
              List.indexOf_cons_ne _ (Ne.symm hvy), List.indexOf_cons_ne _ (Ne.symm hwy)]
            rw [Nat.succ_le_succ_iff, Nat.succ_le_succ_iff]
            exact ih hvx hwx hvys hwys

theorem indexOf_uniqueFirstAux_le : ∀ (fuel : Nat) (l : List String), l.length ≤ fuel →
    ∀ v w, v ∈ l → w ∈ l →
    ((uniqueFirstAux fuel l).indexOf v ≤ (uniqueFirstAux fuel l).indexOf w ↔
      l.indexOf v ≤ l.indexOf w) := by
  intro fuel
  induction fuel with
  | zero =>
      intro l h v w hv _
      have : l = [] := List.eq_nil_of_length_eq_zero (Nat.le_zero.mp h)
      subst this
      simp at hv
  | succ f ih =>
      intro l h v w hv hw
      cases l with
      | nil => simp at hv
      | cons x xs =>
          have hxs : (xs.filter (fun y => y != x)).length ≤ f :=
            le_trans (List.length_filter_le _ _) (by simpa using h)
          simp only [uniqueFirstAux]
          by_cases hvx : v = x
          · subst hvx
            simp [List.indexOf_cons_self]
          · by_cases hwx : w = x
            · subst hwx
              rw [List.indexOf_cons_self, List.indexOf_cons_self,
                List.indexOf_cons_ne _ (Ne.symm hvx), List.indexOf_cons_ne _ (Ne.symm hvx)]
              simp
            · have hvxs : v ∈ xs := by
                rcases List.mem_cons.mp hv with h' | h'
                · exact absurd h' hvx
                · exact h'
              have hwxs : w ∈ xs := by
                rcases List.mem_cons.mp hw with h' | h'
                · exact absurd h' hwx
                · exact h'
              have hvfil : v ∈ xs.filter (fun y => y != x) := by
                simp [List.mem_filter, bne_iff_ne, hvx, hvxs]
              have hwfil : w ∈ xs.filter (fun y => y != x) := by
                simp [List.mem_filter, bne_iff_ne, hwx, hwxs]
              rw [List.indexOf_cons_ne _ (Ne.symm hvx), List.indexOf_cons_ne _ (Ne.symm hwx),
                List.indexOf_cons_ne _ (Ne.symm hvx), List.indexOf_cons_ne _ (Ne.symm hwx)]
              rw [Nat.succ_le_succ_iff, Nat.succ_le_succ_iff]
              rw [ih _ hxs v w hvfil hwfil]
              exact indexOf_filter_ne_le x v w xs hvx hwx hvxs hwxs

theorem indexOf_uniqueFirst_le (l : List String) (v w : String) (hv : v ∈ l) (hw : w ∈ l) :
    ((uniqueFirst l).indexOf v ≤ (uniqueFirst l).indexOf w ↔ l.indexOf v ≤ l.indexOf w) :=
  indexOf_uniqueFirstAux_le l.length l le_rfl v w hv hw

/-! ### Partition correctness: the groups and the null-key rows tile the
dataset -/

theorem flatMap_congr_mem {α β : Type} (l : List α) {f g : α → List β}
    (h : ∀ a ∈ l, f a = g a) : l.flatMap f = l.flatMap g := by
  induction l with
  | nil => rfl
  | cons x xs ih =>
      rw [List.flatMap_cons, List.flatMap_cons, h x (List.mem_cons_self x xs),
        ih (fun a ha => h a (List.mem_cons_of_mem x ha))]

theorem flatMap_filter_key_perm (k : Row → Option String) :
    ∀ (keys : List String), keys.Nodup → ∀ (rows : List Row),
    (∀ r ∈ rows, ∀ v, k r = some v → v ∈ keys) →
    ((keys.flatMap fun v => rows.filter fun r => k r == some v)
      ++ (rows.filter fun r => k r == none)).Perm rows := by
  intro keys
  induction keys with
  | nil =>
      intro _ rows hcomp
      simp only [List.flatMap_nil, List.nil_append]
      have hall : rows.filter (fun r => k r == none) = rows := by
        rw [List.filter_eq_self]
        intro r hr
        cases hk : k r with
        | none => simp
        | some v => exact absurd (hcomp r hr v hk) (List.not_mem_nil v)
      rw [hall]
  | cons v ks ih =>
      intro hnd rows hcomp
      have hvks : v ∉ ks := (List.nodup_cons.mp hnd).1
      have hsplit : (rows.filter (fun r => k r == some v)
          ++ rows.filter (fun r => !(k r == some v))).Perm rows :=
        List.filter_append_perm _ rows
      have hcomp' : ∀ r ∈ rows.filter (fun r => !(k r == some v)),
          ∀ w, k r = some w → w ∈ ks := by
        intro r hr w hk
        have hmem := List.mem_filter.mp hr
        have hne : w ≠ v := by
          intro he
          subst he
          rw [hk] at hmem
          simp at hmem
        rcases List.mem_cons.mp (hcomp r hmem.1 w hk) with h' | h'
        · exact absurd h' hne
        · exact h'
      have hgw : ∀ w ∈ ks,
          (rows.filter (fun r => !(k r == some v))).filter (fun r => k r == some w)
            = rows.filter (fun r => k r == some w) := by
        intro w hw
        have hwv : w ≠ v := fun he => hvks (he ▸ hw)
        rw [List.filter_filter]
        apply List.filter_congr
        intro r _
        cases hb : (k r == some w) with
        | false => simp
        | true =>
            have hkr : k r = some w := eq_of_beq hb
            have hv : (k r == some v) = false := by
              rw [hkr]
              exact beq_eq_false_iff_ne.mpr (by simp [hwv])
            simp [hv]
      have hnull :
          (rows.filter (fun r => !(k r == some v))).filter (fun r => k r == none)
            = rows.filter (fun r => k r == none) := by
        rw [List.filter_filter]
        apply List.filter_congr
        intro r _
        cases hb : (k r == none) with
        | false => simp
        | true =>
            have hkr : k r = none := eq_of_beq hb
            have hv : (k r == some v) = false := by
              rw [hkr]
              exact beq_eq_false_iff_ne.mpr (by simp)
            simp [hv]
      have hflat : ks.flatMap (fun w => rows.filter fun r => k r == some w)
          = ks.flatMap (fun w =>
              (rows.filter (fun r => !(k r == some v))).filter
                fun r => k r == some w) :=
        (flatMap_congr_mem ks (fun w hw => hgw w hw)).symm
      rw [List.flatMap_cons, List.append_assoc, hflat, ← hnull]
      exact (List.Perm.append_left _
        (ih (List.nodup_cons.mp hnd).2 _ hcomp')).trans hsplit

theorem keyOf_mem_uniqueValues (d : Dataset) (c : String) {r : Row} {v : String}
    (hr : r ∈ d.rows) (hk : keyOf d c r = some v) : v ∈ uniqueValues d c := by
  unfold uniqueValues droppedKeys
  rw [mem_uniqueFirst]
  exact List.mem_filterMap.mpr ⟨r, hr, hk⟩

theorem partition_perm (d : Dataset) (c : String) :
    ((uniqueValues d c).flatMap (groupRows d c) ++ nullKeyRows d c).Perm d.rows := by
  have h := flatMap_filter_key_perm (keyOf d c) (uniqueValues d c)
    (nodup_uniqueFirst _) d.rows
    (fun r hr v hk => keyOf_mem_uniqueValues d c hr hk)
  exact h

theorem processed_add_null (d : Dataset) (c : String) :
    processedRowsCount d c + (nullKeyRows d c).length = d.rows.length := by
  have h := (partition_perm d c).length_eq
  rw [List.length_append, List.length_flatMap] at h
  unfold processedRowsCount groupCounts
  rw [← h]
  rfl

/-! ### Sanitizer properties -/

theorem head?_dropWhile_false {α : Type} (p : α → Bool) :
    ∀ (l : List α) (a : α), (l.dropWhile p).head? = some a → p a = false := by
  intro l
  induction l with
  | nil => intro a h; exact Option.noConfusion h
  | cons x xs ih =>
      intro a h
      rw [List.dropWhile_cons] at h
      by_cases hp : p x = true
      · rw [if_pos hp] at h
        exact ih a h
      · rw [if_neg hp] at h
        have hax : a = x := (Option.some.inj h).symm
        subst hax
        exact Bool.not_eq_true _ ▸ hp

theorem dropWhile_idem {α : Type} (p : α → Bool) (l : List α) :
    (l.dropWhile p).dropWhile p = l.dropWhile p := by
  cases h : l.dropWhile p with
  | nil => rfl
  | cons a t =>
      have hpa : p a = false := head?_dropWhile_false p l a (by rw [h]; rfl)
      rw [List.dropWhile_cons, if_neg (by simp [hpa])]

theorem dropWhile_eq_self_of_head {α : Type} (p : α → Bool) (l : List α)
    (h : ∀ a, l.head? = some a → p a = false) : l.dropWhile p = l := by
  cases l with
  | nil => rfl
  | cons x xs =>
      rw [List.dropWhile_cons, if_neg (by simp [h x rfl])]

theorem pyRstrip_sublist (cs : List Char) : (pyRstrip cs).Sublist cs := by
  unfold pyRstrip
  have h := (List.dropWhile_sublist (l := cs.reverse) Char.isWhitespace).reverse
  rwa [List.reverse_reverse] at h

theorem pyRstrip_idem (cs : List Char) : pyRstrip (pyRstrip cs) = pyRstrip cs := by
  unfold pyRstrip
  rw [List.reverse_reverse, dropWhile_idem]

theorem pyRstrip_getLast_not_ws (cs : List Char) (ch : Char)
    (h : (pyRstrip cs).getLast? = some ch) : ch.isWhitespace = false := by
  unfold pyRstrip at h
  rw [List.getLast?_reverse] at h
  exact head?_dropWhile_false _ _ _ h

theorem mem_sanitizeBase_keep (s : String) (ch : Char)
    (h : ch ∈ (sanitizeBase s).data) : keepChar ch = true := by
  have h' : ch ∈ s.data.filter keepChar := List.Sublist.mem h (pyRstrip_sublist _)
  exact (List.mem_filter.mp h').2

theorem sanitizeBase_data_sublist (s : String) :
    (sanitizeBase s).data.Sublist s.data :=
  (pyRstrip_sublist _).trans (List.filter_sublist _)

theorem sanitizeBase_getLast_not_ws (s : String) (ch : Char)
    (h : (sanitizeBase s).data.getLast? = some ch) : ch.isWhitespace = false :=
  pyRstrip_getLast_not_ws _ _ h

theorem sanitizeBase_idem (s : String) : sanitizeBase (sanitizeBase s) = sanitizeBase s := by
  show String.mk (pyRstrip ((sanitizeBase s).data.filter keepChar)) = sanitizeBase s
  rw [List.filter_eq_self.mpr (fun a ha => mem_sanitizeBase_keep s a ha)]
  show String.mk (pyRstrip (pyRstrip (s.data.filter keepChar))) = sanitizeBase s
  rw [pyRstrip_idem]
  rfl

/-! ### Decimal rendering -/

theorem natDigitsAux_eq : ∀ (fuel n : Nat), n ≤ fuel →
    natDigitsAux fuel n = ((Nat.digits 10 n).map digitChar).reverse := by
  intro fuel
  induction fuel with
  | zero =>
      intro n h
      have : n = 0 := Nat.le_zero.mp h
      subst this
      simp [natDigitsAux]
  | succ f ih =>
      intro n h
      cases n with
      | zero => simp [natDigitsAux]
      | succ m =>
          show natDigitsAux f ((m + 1) / 10) ++ [digitChar ((m + 1) % 10)] = _
          have hdiv : (m + 1) / 10 ≤ f := by
            have h1 : (m + 1) / 10 < m + 1 := Nat.div_lt_self (Nat.succ_pos m) (by norm_num)
            omega
          rw [ih _ hdiv, Nat.digits_def' (by norm_num : (1 : ℕ) < 10) (Nat.succ_pos m)]
          simp

theorem natStr_eq_digits (n : Nat) (h : n ≠ 0) :
    natStr n = String.mk (((Nat.digits 10 n).map digitChar).reverse) := by
  unfold natStr
  rw [if_neg h, natDigitsAux_eq n n le_rfl]

theorem digitChar_facts : ∀ d, d < 10 → (digitChar d).isDigit = true ∧
    (digitChar d).isWhitespace = false ∧ keepChar (digitChar d) = true := by decide

theorem natStr_ne_empty (n : Nat) : natStr n ≠ "" := by
  by_cases h : n = 0
  · subst h
    decide
  · rw [natStr_eq_digits n h]
    intro he
    have hdata : (((Nat.digits 10 n).map digitChar).reverse) = [] := congrArg String.data he
    rw [List.reverse_eq_nil_iff, List.map_eq_nil_iff] at hdata
    exact Nat.digits_ne_nil_iff_ne_zero.mpr h hdata

theorem mem_natStr (n : Nat) (ch : Char) (h : ch ∈ (natStr n).data) :
    ch.isDigit = true ∧ ch.isWhitespace = false ∧ keepChar ch = true := by
  by_cases h0 : n = 0
  · subst h0
    have : ch = Char.ofNat 48 := by
      have hd : (natStr 0).data = [Char.ofNat 48] := by decide
      rw [hd] at h
      exact List.mem_singleton.mp h
    subst this
    decide
  · rw [natStr_eq_digits n h0] at h
    have h' : ch ∈ (Nat.digits 10 n).map digitChar := List.mem_reverse.mp h
    obtain ⟨d, hd, rfl⟩ := List.mem_map.mp h'
    exact digitChar_facts d (Nat.digits_lt_base (by norm_num) hd)

theorem map_digitChar_inj : ∀ (L M : List Nat), (∀ d ∈ L, d < 10) → (∀ d ∈ M, d < 10) →
    L.map digitChar = M.map digitChar → L = M := by
  intro L
  induction L with
  | nil =>
      intro M _ _ h
      cases M with
      | nil => rfl
      | cons b M' => exact absurd h (by simp)
  | cons a L' ih =>
      intro M hL hM h
      cases M with
      | nil => exact absurd h (by simp)
      | cons b M' =>
          simp only [List.map_cons, List.cons.injEq] at h
          have hab : a = b :=
            (by decide : ∀ a, a < 10 → ∀ b, b < 10 → digitChar a = digitChar b → a = b)
              a (hL a (List.mem_cons_self a L')) b (hM b (List.mem_cons_self b M')) h.1
          rw [hab, ih M' (fun d hd => hL d (List.mem_cons_of_mem a hd))
            (fun d hd => hM d (List.mem_cons_of_mem b hd)) h.2]

theorem digits_map_eq_singleton_zero {n : Nat} (h : (Nat.digits 10 n).map digitChar
    = [Char.ofNat 48]) : n = 0 := by
  have hdig : Nat.digits 10 n = [0] := by
    apply map_digitChar_inj (Nat.digits 10 n) [0]
      (fun d hd => Nat.digits_lt_base (by norm_num) hd) (by simp)
    rw [h]
    rfl
  have := Nat.ofDigits_digits 10 n
  rw [hdig] at this
  simp [Nat.ofDigits] at this
  omega

theorem natStr_inj (m n : Nat) (h : natStr m = natStr n) : m = n := by
  by_cases hm : m = 0 <;> by_cases hn : n = 0
  · rw [hm, hn]
  · subst hm
    rw [natStr_eq_digits n hn] at h
    have hdata := congrArg String.data h.symm
    have h0 : (natStr 0).data = [Char.ofNat 48] := by decide
    rw [h0] at hdata
    have hX : ((Nat.digits 10 n).map digitChar).reverse = [Char.ofNat 48] := hdata
    have hrev : (Nat.digits 10 n).map digitChar = [Char.ofNat 48] := by
      apply List.reverse_injective
      rw [hX]
      decide
    exact absurd (digits_map_eq_singleton_zero hrev) hn
  · subst hn
    rw [natStr_eq_digits m hm] at h
    have hdata := congrArg String.data h
    have h0 : (natStr 0).data = [Char.ofNat 48] := by decide
    rw [h0] at hdata
    have hX : ((Nat.digits 10 m).map digitChar).reverse = [Char.ofNat 48] := hdata
    have hrev : (Nat.digits 10 m).map digitChar = [Char.ofNat 48] := by
      apply List.reverse_injective
      rw [hX]
      decide
    exact absurd (digits_map_eq_singleton_zero hrev) hm
  · rw [natStr_eq_digits m hm, natStr_eq_digits n hn] at h
    have hdata := congrArg String.data h
    have hmap : (Nat.digits 10 m).map digitChar = (Nat.digits 10 n).map digitChar :=
      List.reverse_injective hdata
    have hdig := map_digitChar_inj _ _
      (fun d hd => Nat.digits_lt_base (by norm_num) hd)
      (fun d hd => Nat.digits_lt_base (by norm_num) hd) hmap
    have h1 := Nat.ofDigits_digits 10 m
    rw [hdig, Nat.ofDigits_digits 10 n] at h1
    exact h1.symm

/-! ### Placeholder and safe filename -/

theorem placeholder_data (i : Nat) :
    (placeholder i).data = "未命名项目_".data ++ (natStr i).data :=
  String.data_append _ _

theorem mem_placeholder (i : Nat) (ch : Char) (h : ch ∈ (placeholder i).data) :
    keepChar ch = true ∧ ch.isWhitespace = false := by
  rw [placeholder_data] at h
  rcases List.mem_append.mp h with h' | h'
  · exact (by decide :
      ∀ c ∈ ("未命名项目_" : String).data, keepChar c = true ∧ c.isWhitespace = false) ch h'
  · exact ⟨(mem_natStr i ch h').2.2, (mem_natStr i ch h').2.1⟩

theorem placeholder_ne_empty (i : Nat) : placeholder i ≠ "" := by
  intro h
  have hdata := congrArg String.data h
  rw [placeholder_data] at hdata
  have h2 := List.append_eq_nil.mp hdata
  exact absurd h2.1 (by decide)

theorem sanitizeBase_placeholder (i : Nat) :
    sanitizeBase (placeholder i) = placeholder i := by
  show String.mk (pyRstrip ((placeholder i).data.filter keepChar)) = placeholder i
  rw [List.filter_eq_self.mpr (fun a ha => (mem_placeholder i a ha).1)]
  have hrs : pyRstrip (placeholder i).data = (placeholder i).data := by
    unfold pyRstrip
    rw [dropWhile_eq_self_of_head, List.reverse_reverse]
    intro a ha
    have hmem : a ∈ (placeholder i).data :=
      List.mem_reverse.mp (List.mem_of_mem_head? (by rw [ha]; rfl))
    exact (mem_placeholder i a hmem).2
  rw [hrs]

theorem safeFilename_idem (s : String) (i j : Nat) :
    safeFilename (safeFilename s i) j = safeFilename s i := by
  unfold safeFilename
  by_cases h : sanitizeBase s = ""
  · rw [if_pos h, sanitizeBase_placeholder, if_neg (placeholder_ne_empty i)]
  · rw [if_neg h, sanitizeBase_idem, if_neg h]

theorem placeholder_inj (i j : Nat) (h : placeholder i = placeholder j) : i = j := by
  unfold placeholder at h
  have hdata := congrArg String.data h
  rw [String.data_append, String.data_append] at hdata
  exact natStr_inj i j (String.ext (List.append_cancel_left hdata))

/-! ### The serialization loop and the pipeline -/

theorem runGroups_none_iff (d : Dataset) (c : String)
    (ser : List Row → Option (List Nat)) (n : Nat) :
    ∀ (l : List (Nat × String)),
    (runGroups d c ser n l).1 = none ↔ ∃ p ∈ l, ser (groupRows d c p.2) = none := by
  intro l
  induction l with
  | nil => simp [runGroups]
  | cons p rest ih =>
      obtain ⟨i, v⟩ := p
      cases hs : ser (groupRows d c v) with
      | none =>
          have hred : (runGroups d c ser n ((i, v) :: rest)).1 = none := by
            simp [runGroups, hs]
          rw [hred]
          exact iff_of_true rfl ⟨(i, v), List.mem_cons_self _ _, hs⟩
      | some bytes =>
          simp only [runGroups, hs, Option.map_eq_none']
          rw [ih]
          constructor
          · rintro ⟨q, hq, hser⟩
            exact ⟨q, List.mem_cons_of_mem _ hq, hser⟩
          · rintro ⟨q, hq, hser⟩
            rcases List.mem_cons.mp hq with h' | h'
            · rw [h'] at hser
              rw [hser] at hs
              exact Option.noConfusion hs
            · exact ⟨q, h', hser⟩

theorem runGroups_some (d : Dataset) (c : String)
    (ser : List Row → Option (List Nat)) (n : Nat) :
    ∀ (l : List (Nat × String)) (es : List (String × List Nat)),
    (runGroups d c ser n l).1 = some es →
    List.Forall₂ (fun (p : Nat × String) (e : String × List Nat) =>
      e.1 = safeFilename p.2 p.1 ++ ".xlsx" ∧ ser (groupRows d c p.2) = some e.2) l es := by
  intro l
  induction l with
  | nil =>
      intro es h
      have : es = [] := (Option.some.inj h).symm
      subst this
      exact List.Forall₂.nil
  | cons p rest ih =>
      obtain ⟨i, v⟩ := p
      intro es h
      cases hs : ser (groupRows d c v) with
      | none =>
          simp only [runGroups, hs] at h
          exact Option.noConfusion h
      | some bytes =>
          simp only [runGroups, hs, Option.map_eq_some'] at h
          obtain ⟨es', hes', rfl⟩ := h
          exact List.forall₂_cons.mpr ⟨⟨rfl, hs⟩, ih es' hes'⟩

theorem mem_enum1_of_mem {keys : List String} {v : String} (h : v ∈ keys) :
    ∃ k, ∃ hk : k < keys.length, keys.get ⟨k, hk⟩ = v ∧ (k + 1, v) ∈ enum1 keys := by
  obtain ⟨⟨k, hk⟩, hget⟩ := List.mem_iff_get.mp h
  refine ⟨k, hk, hget, ?_⟩
  have hlen : k < keys.enum.length := by simpa using hk
  have h1 : keys.enum.get ⟨k, hlen⟩ = (k, keys.get ⟨k, hk⟩) := by
    simp [List.get_eq_getElem, List.getElem_enum]
  have hmem : (k, v) ∈ keys.enum := by
    rw [hget] at h1
    exact h1 ▸ List.get_mem keys.enum k hlen
  exact List.mem_map.mpr ⟨(k, v), hmem, rfl⟩

theorem process_err (sourceName c : String) (ser : List Row → Option (List Nat)) :
    process_and_zip sourceName .err c ser
      = (none, [.prepare sourceName, .errorMsg, .errorHint]) := rfl

theorem process_no_column (sourceName c : String) (d : Dataset)
    (ser : List Row → Option (List Nat)) (h : c ∉ d.header) :
    process_and_zip sourceName (.ok d) c ser
      = (none, [.prepare sourceName, .readOk d.rows.length, .errorMsg, .errorHint]) := by
  simp [process_and_zip, h]

theorem process_ser_fail (sourceName c : String) (d : Dataset)
    (ser : List Row → Option (List Nat))
    (h : ∃ v ∈ uniqueValues d c, ser (groupRows d c v) = none) :
    (process_and_zip sourceName (.ok d) c ser).1 = none := by
  by_cases hcol : c ∈ d.header
  · obtain ⟨v, hv, hser⟩ := h
    obtain ⟨k, _, _, hmem⟩ := mem_enum1_of_mem hv
    have hrun : (runGroups d c ser (uniqueValues d c).length
        (enum1 (uniqueValues d c))).1 = none :=
      (runGroups_none_iff d c ser _ _).mpr ⟨(k + 1, v), hmem, hser⟩
    simp [process_and_zip, hcol, hrun]
  · simp [process_and_zip, hcol]

theorem process_success (sourceName c : String) (d : Dataset)
    (ser : List Row → Option (List Nat)) (a : Archive)
    (h : (process_and_zip sourceName (.ok d) c ser).1 = some a) :
    c ∈ d.header ∧ ∃ es, (runGroups d c ser (uniqueValues d c).length
      (enum1 (uniqueValues d c))).1 = some es ∧ a = seek0 (buildArchive es) := by
  by_cases hcol : c ∈ d.header
  · simp only [process_and_zip, if_pos hcol] at h
    cases hrun : (runGroups d c ser (uniqueValues d c).length
        (enum1 (uniqueValues d c))).1 with
    | none =>
        rw [hrun] at h
        exact Option.noConfusion h
    | some es =>
        rw [hrun] at h
        exact ⟨hcol, es, rfl, (Option.some.inj h).symm⟩
  · simp [process_and_zip, hcol] at h

/-! ### Claims -/

/-- C1 counterexample: with a key cell holding the empty string, the spec's
"union of all groups' rows plus the rows with null/empty key" duplicates the
empty-string rows (they are in a group and in the null/empty set), so it is
not a permutation of the dataset. -/
theorem C1_counterexample :
    ¬ ((uniqueValues emptyKeyDataset "K").flatMap (groupRows emptyKeyDataset "K")
        ++ nullOrEmptyKeyRows emptyKeyDataset "K").Perm emptyKeyDataset.rows := by
  decide

/-- C1 (amended): for every dataset and key column present in it, every row of
a group carries that group's key value, groups for distinct keys are pairwise
disjoint, and the groups' rows together with the rows whose key cell is null
(not merely empty) are a permutation of the dataset: no row duplicated, none
dropped. -/
theorem C1_partition_amended (d : Dataset) (c : String) (h : c ∈ d.header) :
    (∀ v ∈ uniqueValues d c, ∀ r ∈ groupRows d c v, keyOf d c r = some v)
    ∧ (∀ v w : String, v ≠ w → ∀ r : Row, r ∈ groupRows d c v → r ∉ groupRows d c w)
    ∧ ((uniqueValues d c).flatMap (groupRows d c) ++ nullKeyRows d c).Perm d.rows := by
  refine ⟨?_, ?_, partition_perm d c⟩
  · intro v _ r hr
    exact eq_of_beq (List.mem_filter.mp hr).2
  · intro v w hvw r hrv hrw
    have h1 := eq_of_beq (List.mem_filter.mp hrv).2
    have h2 := eq_of_beq (List.mem_filter.mp hrw).2
    rw [h1] at h2
    exact hvw (Option.some.inj h2)

/-- C1 witness: the amended partition identity evaluated on a concrete
dataset with a repeated key and a null key cell. -/
theorem C1_partition_amended_witness :
    ((uniqueValues sampleDataset "Region").flatMap (groupRows sampleDataset "Region")
      ++ nullKeyRows sampleDataset "Region").Perm sampleDataset.rows :=
  (C1_partition_amended sampleDataset "Region" (by decide)).2.2

/-- C2 counterexample: with a key cell holding the empty string, the extractor
returns the empty string among the key values, so the returned values are not
all non-empty as the claim states. -/
theorem C2_counterexample :
    ¬ (∀ v ∈ uniqueValues emptyKeyDataset "K", v ≠ "") := by
  decide

/-- C2 (amended): for every dataset and key column present in it, the key
extractor returns a duplicate-free list whose members are exactly the values
occurring in some row's key cell (null cells are skipped without error, but
the empty string is a value like any other), ordered by first appearance in
the dataset. -/
theorem C2_key_extractor_amended (d : Dataset) (c : String) (h : c ∈ d.header) :
    (uniqueValues d c).Nodup
    ∧ (∀ v, v ∈ uniqueValues d c ↔ ∃ r ∈ d.rows, keyOf d c r = some v)
    ∧ (∀ v w, v ∈ uniqueValues d c → w ∈ uniqueValues d c →
        ((uniqueValues d c).indexOf v ≤ (uniqueValues d c).indexOf w ↔
          (droppedKeys d c).indexOf v ≤ (droppedKeys d c).indexOf w)) := by
  refine ⟨nodup_uniqueFirst _, ?_, ?_⟩
  · intro v
    unfold uniqueValues droppedKeys
    rw [mem_uniqueFirst, List.mem_filterMap]
  · intro v w hv hw
    have hv' : v ∈ droppedKeys d c := (mem_uniqueFirst _ _).mp hv
    have hw' : w ∈ droppedKeys d c := (mem_uniqueFirst _ _).mp hw
    exact indexOf_uniqueFirst_le _ v w hv' hw'

/-- C2 witness: the amended extractor contract evaluated on a concrete
dataset. -/
theorem C2_key_extractor_amended_witness :
    (uniqueValues sampleDataset "Region").Nodup ∧
      ("North" ∈ uniqueValues sampleDataset "Region" ↔
        ∃ r ∈ sampleDataset.rows, keyOf sampleDataset "Region" r = some "North") :=
  ⟨(C2_key_extractor_amended sampleDataset "Region" (by decide)).1,
   (C2_key_extractor_amended sampleDataset "Region" (by decide)).2.1 "North"⟩

/-- C3 counterexample: with a key cell holding the empty string, the group row
counts already cover that row, so adding the count of rows with "null/empty"
key (which counts it again) overshoots the total. -/
theorem C3_counterexample :
    processedRowsCount emptyKeyDataset "K"
      + (nullOrEmptyKeyRows emptyKeyDataset "K").length
      ≠ emptyKeyDataset.rows.length := by
  decide

/-- C3 (amended): for every dataset and key column present in it, the sum of
the per-group row counts plus the number of rows whose key cell is null (not
merely empty) equals the total input row count. -/
theorem C3_reconciliation_amended (d : Dataset) (c : String) (h : c ∈ d.header) :
    processedRowsCount d c + (nullKeyRows d c).length = d.rows.length :=
  processed_add_null d c

/-- C3 witness: the amended reconciliation identity on a concrete dataset
with one null key cell. -/
theorem C3_reconciliation_amended_witness :
    processedRowsCount sampleDataset "Region"
      + (nullKeyRows sampleDataset "Region").length = sampleDataset.rows.length :=
  C3_reconciliation_amended sampleDataset "Region" (by decide)

/-- C4: a run that fails to read its input, lacks the key column, or hits a
serializer failure on any discovered group returns no archive at all; and a
run that does return an archive has archived every discovered group, so there
is no partial-success mode. -/
theorem C4_no_partial_archive (sourceName c : String) (d : Dataset)
    (ser : List Row → Option (List Nat)) :
    ((process_and_zip sourceName .err c ser).1 = none)
    ∧ (c ∉ d.header → (process_and_zip sourceName (.ok d) c ser).1 = none)
    ∧ ((∃ v ∈ uniqueValues d c, ser (groupRows d c v) = none) →
        (process_and_zip sourceName (.ok d) c ser).1 = none)
    ∧ (∀ a, (process_and_zip sourceName (.ok d) c ser).1 = some a →
        a.entries.length = (uniqueValues d c).length
        ∧ ∀ v ∈ uniqueValues d c, ser (groupRows d c v) ≠ none) := by
  refine ⟨rfl, ?_, process_ser_fail sourceName c d ser, ?_⟩
  · intro h
    rw [process_no_column sourceName c d ser h]
  · intro a ha
    obtain ⟨hcol, es, hrun, rfl⟩ := process_success sourceName c d ser a ha
    have hf := runGroups_some d c ser _ _ es hrun
    have hlen : (enum1 (uniqueValues d c)).length = es.length := hf.length_eq
    constructor
    · show es.length = (uniqueValues d c).length
      rw [← hlen]
      simp [enum1]
    · intro v hv hser
      obtain ⟨k, hk, _, hmem⟩ := mem_enum1_of_mem hv
      have hnone : (runGroups d c ser (uniqueValues d c).length
          (enum1 (uniqueValues d c))).1 = none :=
        (runGroups_none_iff d c ser _ _).mpr ⟨(k + 1, v), hmem, hser⟩
      rw [hrun] at hnone
      exact Option.noConfusion hnone

/-- C4 witness: the three failure modes evaluated at concrete inputs — a
failed read, a missing column, and an always-failing serializer. -/
theorem C4_no_partial_archive_witness :
    (process_and_zip "src" .err "K" serOk).1 = none
    ∧ (process_and_zip "src" (.ok dupNameDataset) "Missing" serOk).1 = none
    ∧ (process_and_zip "src" (.ok emptyKeyDataset) "K" serFail).1 = none :=
  ⟨(C4_no_partial_archive "src" "K" dupNameDataset serOk).1,
   (C4_no_partial_archive "src" "Missing" dupNameDataset serOk).2.1 (by decide),
   (C4_no_partial_archive "src" "K" emptyKeyDataset serFail).2.2.1
     ⟨"", by decide, rfl⟩⟩

/-- C5: the sanitizer keeps exactly the alphanumeric, space, underscore and
hyphen characters of the value's text (so the result's characters form a
sub-sequence of the input, all allowed), trims trailing whitespace (the
result never ends in whitespace), falls back to a placeholder carrying the
1-based position when the result is empty, and in particular sanitizes
"A/B*Co." to "ABCo". -/
theorem C5_sanitizer (v : String) (i : Nat) :
    safeFilename "A/B*Co." 1 = "ABCo"
    ∧ (sanitizeBase v).data = pyRstrip (v.data.filter keepChar)
    ∧ (sanitizeBase v).data.Sublist v.data
    ∧ (∀ ch ∈ (sanitizeBase v).data, keepChar ch = true)
    ∧ (∀ ch, (sanitizeBase v).data.getLast? = some ch → ch.isWhitespace = false)
    ∧ (sanitizeBase v ≠ "" → safeFilename v i = sanitizeBase v)
    ∧ (sanitizeBase v = "" → safeFilename v i = "未命名项目_" ++ natStr i) := by
  refine ⟨by decide, rfl, sanitizeBase_data_sublist v,
    fun ch hc => mem_sanitizeBase_keep v ch hc,
    fun ch hc => sanitizeBase_getLast_not_ws v ch hc, ?_, ?_⟩
  · intro h
    unfold safeFilename
    rw [if_neg h]
  · intro h
    unfold safeFilename
    rw [if_pos h]
    rfl

/-- C5 witness: the sanitizer's two branches evaluated at concrete values —
one value that keeps characters and one that sanitizes to empty. -/
theorem C5_sanitizer_witness :
    safeFilename "A/B*Co." 3 = sanitizeBase "A/B*Co."
    ∧ safeFilename "///" 2 = "未命名项目_" ++ natStr 2 :=
  ⟨(C5_sanitizer "A/B*Co." 3).2.2.2.2.2.1 (by decide),
   (C5_sanitizer "///" 2).2.2.2.2.2.2 (by decide)⟩

/-- C6: the sanitizer is idempotent — sanitizing an already-sanitized name
(placeholders included) returns it unchanged — and every value that sanitizes
to empty yields the placeholder carrying its 1-based position, so the
placeholders of two different positions are distinct. -/
theorem C6_sanitizer_idempotent (s t : String) (i j : Nat) :
    safeFilename (safeFilename s i) j = safeFilename s i
    ∧ (sanitizeBase s = "" → safeFilename s i = "未命名项目_" ++ natStr i)
    ∧ (sanitizeBase s = "" → sanitizeBase t = "" → i ≠ j →
        safeFilename s i ≠ safeFilename t j) := by
  refine ⟨safeFilename_idem s i j, ?_, ?_⟩
  · intro h
    unfold safeFilename
    rw [if_pos h]
    rfl
  · intro hs ht hij
    unfold safeFilename
    rw [if_pos hs, if_pos ht]
    exact fun he => hij (placeholder_inj i j he)

/-- C6 witness: idempotence and placeholder distinctness at concrete
values. -/
theorem C6_sanitizer_idempotent_witness :
    safeFilename (safeFilename "//" 1) 2 = safeFilename "//" 1
    ∧ safeFilename "//" 1 ≠ safeFilename "**" 2 :=
  ⟨(C6_sanitizer_idempotent "//" "**" 1 2).1,
   (C6_sanitizer_idempotent "//" "**" 1 2).2.2 (by decide) (by decide) (by decide)⟩

/-- C7: when the key column is absent from the header, the run returns no
archive, its log is exactly the preparation line, the read confirmation and
the two error-surfacing lines, and in particular no group-completion line is
ever emitted — the failure happens before any partitioning work. -/
theorem C7_column_not_found (sourceName c : String) (d : Dataset)
    (ser : List Row → Option (List Nat)) (h : c ∉ d.header) :
    (process_and_zip sourceName (.ok d) c ser).1 = none
    ∧ (process_and_zip sourceName (.ok d) c ser).2
        = [.prepare sourceName, .readOk d.rows.length, .errorMsg, .errorHint]
    ∧ ∀ i n f k, LogEvent.groupDone i n f k ∉ (process_and_zip sourceName (.ok d) c ser).2 := by
  have h' := process_no_column sourceName c d ser h
  refine ⟨by rw [h'], by rw [h'], ?_⟩
  intro i n f k hmem
  rw [h'] at hmem
  simp at hmem

/-- C7 witness: a concrete run with a column name absent from the header. -/
theorem C7_column_not_found_witness :
    (process_and_zip "src" (.ok sampleDataset) "City" serOk).1 = none
    ∧ (process_and_zip "src" (.ok sampleDataset) "City" serOk).2
        = [.prepare "src", .readOk 3, .errorMsg, .errorHint] :=
  ⟨(C7_column_not_found "src" "City" sampleDataset serOk (by decide)).1,
   (C7_column_not_found "src" "City" sampleDataset serOk (by decide)).2.1⟩

theorem map_fst_of_runGroups_forall₂ (d : Dataset) (c : String)
    (ser : List Row → Option (List Nat)) :
    ∀ (l : List (Nat × String)) (es : List (String × List Nat)),
    List.Forall₂ (fun (p : Nat × String) (e : String × List Nat) =>
      e.1 = safeFilename p.2 p.1 ++ ".xlsx" ∧ ser (groupRows d c p.2) = some e.2) l es →
    es.map Prod.fst = l.map (fun p => safeFilename p.2 p.1 ++ ".xlsx") := by
  intro l
  induction l with
  | nil =>
      intro es h
      cases h
      rfl
  | cons p rest ih =>
      intro es h
      cases h with
      | cons hpe htail =>
          simp only [List.map_cons]
          rw [hpe.1, ih _ htail]

/-- C8: a successful run returns the archive rewound to its start, with one
member per discovered key in first-occurrence order, each named by the
sanitizer with the ".xlsx" suffix and holding that key's serialized group;
and when two distinct keys sanitize to the same name the archive simply holds
two members with that name, as the concrete duplicate-name run shows. -/
theorem C8_archive_success (sourceName c : String) (d : Dataset)
    (ser : List Row → Option (List Nat)) (a : Archive)
    (h : (process_and_zip sourceName (.ok d) c ser).1 = some a) :
    a.pos = 0
    ∧ a.entries.map Prod.fst
        = (enum1 (uniqueValues d c)).map (fun p => safeFilename p.2 p.1 ++ ".xlsx")
    ∧ List.Forall₂ (fun (p : Nat × String) (e : String × List Nat) =>
        e.1 = safeFilename p.2 p.1 ++ ".xlsx" ∧ ser (groupRows d c p.2) = some e.2)
        (enum1 (uniqueValues d c)) a.entries
    ∧ (process_and_zip "src" (.ok dupNameDataset) "K" serOk).1
        = some { entries := [("Team.xlsx", [1]), ("Team.xlsx", [1])], pos := 0 } := by
  obtain ⟨hcol, es, hrun, rfl⟩ := process_success sourceName c d ser a h
  have hf := runGroups_some d c ser _ _ es hrun
  exact ⟨rfl, map_fst_of_runGroups_forall₂ d c ser _ es hf, hf, by decide⟩

/-- C8 witness: the member-name list of the concrete duplicate-name run,
extracted by applying the success theorem to it. -/
theorem C8_archive_success_witness :
    (Archive.mk [("Team.xlsx", [1]), ("Team.xlsx", [1])] 0).entries.map Prod.fst
      = (enum1 (uniqueValues dupNameDataset "K")).map
          (fun p => safeFilename p.2 p.1 ++ ".xlsx") :=
  (C8_archive_success "src" "K" dupNameDataset serOk
    (Archive.mk [("Team.xlsx", [1]), ("Team.xlsx", [1])] 0) (by decide)).2.1

/-- C9: a row whose key cell holds the empty string (as opposed to null) is
not excluded: the empty string is a discovered key, the row is in its group
and not among the null-key rows, the group is written to the archive under
the positional placeholder filename, and its rows count toward the processed
total. -/
theorem C9_empty_string_key (d : Dataset) (c : String) (r : Row)
    (hr : r ∈ d.rows) (hk : keyOf d c r = some "") :
    "" ∈ uniqueValues d c
    ∧ r ∈ groupRows d c ""
    ∧ r ∉ nullKeyRows d c
    ∧ (∃ k, ∃ hk' : k < (uniqueValues d c).length,
        (uniqueValues d c).get ⟨k, hk'⟩ = ""
        ∧ ("未命名项目_" ++ natStr (k + 1) ++ ".xlsx", groupRows d c "")
            ∈ archiveEntries d c)
    ∧ (groupRows d c "").length ≤ processedRowsCount d c := by
  have h1 : "" ∈ uniqueValues d c := keyOf_mem_uniqueValues d c hr hk
  refine ⟨h1, ?_, ?_, ?_, ?_⟩
  · exact List.mem_filter.mpr ⟨hr, by simp [hk]⟩
  · intro hmem
    have h2 := (List.mem_filter.mp hmem).2
    rw [hk] at h2
    simp at h2
  · obtain ⟨k, hk', hget, hmem⟩ := mem_enum1_of_mem h1
    refine ⟨k, hk', hget, ?_⟩
    apply List.mem_map.mpr
    refine ⟨(k + 1, ""), hmem, ?_⟩
    have hsf : safeFilename "" (k + 1) = "未命名项目_" ++ natStr (k + 1) := by
      unfold safeFilename
      rw [if_pos (by decide : sanitizeBase "" = "")]
      rfl
    rw [hsf]
  · have hmm : (groupRows d c "").length ∈ groupCounts d c :=
      List.mem_map.mpr ⟨"", h1, rfl⟩
    exact List.single_le_sum (fun x _ => Nat.zero_le x) _ hmm

/-- C9 witness: the empty-string-key behaviour on the concrete one-row
dataset. -/
theorem C9_empty_string_key_witness :
    (groupRows emptyKeyDataset "K" "").length
      ≤ processedRowsCount emptyKeyDataset "K" :=
  (C9_empty_string_key emptyKeyDataset "K" [some ""] (by decide) (by decide)).2.2.2.2

/-- C10: the processed-rows count accumulated across groups never exceeds the
total input row count, so the unprocessed figure the reconciler reports —
total minus processed, computed in the integers — is non-negative. -/
theorem C10_processed_le_total (d : Dataset) (c : String) (h : c ∈ d.header) :
    processedRowsCount d c ≤ d.rows.length
    ∧ (0 : Int) ≤ (d.rows.length : Int) - (processedRowsCount d c : Int) := by
  have hp := processed_add_null d c
  exact ⟨by omega, by omega⟩

/-- C10 witness: the bound at a concrete dataset with one null key cell. -/
theorem C10_processed_le_total_witness :
    processedRowsCount sampleDataset "Region" ≤ sampleDataset.rows.length :=
  (C10_processed_le_total sampleDataset "Region" (by decide)).1
